import Mathlib

/-!
A shallow embedding, in Lean, of the n-gram sentence generator implemented in
`main.py` (classes `Corpus` and `NGramModel`), together with proofs about the
tokenizer, the training pass that builds the context-to-distribution table,
and the stochastic generation loop.

Modelling conventions:
* Python strings are `String`, token sequences are `List String`.
* Python dicts preserve insertion order, so both levels of the n-gram
  dictionary are modelled as association lists kept in insertion order; a
  `defaultdict` lookup that inserts a default entry is modelled by an explicit
  state-passing lookup (`dictGet`).
* Python floats are modelled as exact rationals (`ℚ`).
* `random.random()` draws are passed in explicitly as rationals in `[0, 1)`.
* A raised exception is modelled as `none` / `GenResult.error`.
-/

namespace Ngram

/-- Modelled from the spec: the configuration constants `SENTENCE_END_CHARS`,
`SENTENCE_START_TOKEN` and `SENTENCE_END_TOKEN` are imported by `main.py` from a
`settings` module that is not part of the sources. The spec describes them as a
set of sentence-ending punctuation characters and two reserved marker Symbols
that collide with no real-word token; the spec's tokenizer example treats `,`
as not sentence-ending and `!` as sentence-ending. -/
def SENTENCE_END_CHARS : List Char := ['.', '!', '?']

/-- Modelled from the spec: the reserved start-marker Symbol (see
`SENTENCE_END_CHARS`). -/
def SENTENCE_START_TOKEN : String := "<start>"

/-- Modelled from the spec: the reserved end-of-sentence marker Symbol (see
`SENTENCE_END_CHARS`). -/
def SENTENCE_END_TOKEN : String := "<end>"

/-- Membership in Python's `string.punctuation`, i.e. the ASCII characters
`!"#$%&'()*+,-./:;<=>?@[\]^_`{|}~`, given here by their ASCII code ranges
33-47, 58-64, 91-96 and 123-126. -/
def isPunct (c : Char) : Bool :=
  (33 ≤ c.toNat && c.toNat ≤ 47) || (58 ≤ c.toNat && c.toNat ≤ 64) ||
    (91 ≤ c.toNat && c.toNat ≤ 96) || (123 ≤ c.toNat && c.toNat ≤ 126)

/-- Python's `str.split()`: split a character list into maximal runs of
non-whitespace characters, discarding all whitespace.  The accumulator holds
the current word reversed. -/
def splitWords : List Char → List Char → List (List Char)
  | [], acc => if acc.isEmpty then [] else [acc.reverse]
  | c :: cs, acc =>
      if c.isWhitespace then
        if acc.isEmpty then splitWords cs [] else acc.reverse :: splitWords cs []
      else splitWords cs (c :: acc)

/-- The first `while` loop of `Corpus.tokenize`: strip the maximal punctuation
prefix of a word, returning the stripped characters as one-character tokens (in
original order, which is the order Python appends them) and the remaining
characters. -/
def stripLeading : List Char → List String × List Char
  | [] => ([], [])
  | c :: cs =>
      if isPunct c then
        let p := stripLeading cs
        (String.mk [c] :: p.1, p.2)
      else ([], c :: cs)

/-- The second `while` loop of `Corpus.tokenize`, acting on the reversed word:
Python repeatedly strips the last character while it is punctuation, appending
it as a token and appending `SENTENCE_END_TOKEN` right after it when it is a
sentence-end character.  On the reversed character list this is a prefix walk;
the returned token list is exactly `special_chars_after_word` in Python's
append order, and the returned characters are the reversed residual core. -/
def stripTrailingRev : List Char → List String × List Char
  | [] => ([], [])
  | c :: cs =>
      if isPunct c then
        let p := stripTrailingRev cs
        ((String.mk [c] :: if c ∈ SENTENCE_END_CHARS then [SENTENCE_END_TOKEN] else []) ++ p.1,
          p.2)
      else ([], c :: cs)

/-- The per-word body of `Corpus.tokenize`: leading punctuation tokens, then
the residual core (possibly the empty string), then trailing punctuation tokens
interleaved with end-of-sentence markers. -/
def tokenizeWord (w : List Char) : List String :=
  let lead := stripLeading w
  let trail := stripTrailingRev lead.2.reverse
  lead.1 ++ [String.mk trail.2.reverse] ++ trail.1

/-- `Corpus.tokenize`: split the line on whitespace and tokenize each word. -/
def tokenize (s : String) : List String :=
  ((splitWords s.toList []).map tokenizeWord).flatten

/-- A per-context distribution: the inner `defaultdict` of `NGramModel`,
an insertion-ordered mapping from token to count (during training) or to
probability (after normalization). -/
abbrev Dist := List (String × ℚ)

/-- The two-level n-gram dictionary `NGramModel.ngram_dict`, an
insertion-ordered mapping from context to distribution. -/
abbrev NGramTable := List (List String × Dist)

/-- The contexts present in a table. -/
def keysOf (t : NGramTable) : List (List String) :=
  t.map Prod.fst

/-- `ngram_dict[context][word] += 1` at the inner level: increment the count of
`w`, inserting it (at the end, as Python dicts do) with count `0 + 1 = 1` if
absent. -/
def bumpWord : Dist → String → Dist
  | [], w => [(w, 1)]
  | (k, v) :: rest, w =>
      if k = w then (k, v + 1) :: rest else (k, v) :: bumpWord rest w

/-- `ngram_dict[context][word] += 1` at the outer level. -/
def bumpTable : NGramTable → List String → String → NGramTable
  | [], c, w => [(c, bumpWord [] w)]
  | (k, d) :: rest, c, w =>
      if k = c then (k, bumpWord d w) :: rest else (k, d) :: bumpTable rest c w

/-- The context window `tokens[i - n + 1 : i]` of the padded token list used by
`NGramModel.init_ngram_dict` (for `i ≥ n - 1` the Python index `i - n + 1`
equals the natural number `i + 1 - n`). -/
def windowAt (n : Nat) (padded : List String) (i : Nat) : List String :=
  (padded.take i).drop (i + 1 - n)

/-- One iteration of the training loop of `NGramModel.init_ngram_dict`: at
window end `i` (only indices `i ≥ n - 1` are visited by `range(n-1, len)`),
count the observed pair of context `tokens[i-n+1:i]` and word `tokens[i]`. -/
def countStep (n : Nat) (padded : List String) (t : NGramTable) (i : Nat) : NGramTable :=
  if n - 1 ≤ i then bumpTable t (windowAt n padded i) (padded.getD i "") else t

/-- The per-line training loop of `NGramModel.init_ngram_dict`: left-pad the
line with `n - 1` start markers, then slide the window across it. -/
def countLine (n : Nat) (t : NGramTable) (tokens : List String) : NGramTable :=
  let padded := List.replicate (n - 1) SENTENCE_START_TOKEN ++ tokens
  (List.range padded.length).foldl (countStep n padded) t

/-- The final loop of `NGramModel.init_ngram_dict`: turn counts into
probabilities by dividing every count of a context by that context's total. -/
def normalize (t : NGramTable) : NGramTable :=
  t.map (fun e =>
    let total := (e.2.map Prod.snd).sum
    (e.1, e.2.map (fun x => (x.1, x.2 / total))))

/-- `NGramModel.init_ngram_dict`: one counting pass over the corpus, then
normalization. -/
def init_ngram_dict (n : Nat) (corpus : List (List String)) : NGramTable :=
  normalize (corpus.foldl (countLine n) [])

/-- `self.ngram_dict[context]` where `ngram_dict` is a
`defaultdict(lambda: defaultdict(int))`: return the distribution of `context`
if present; otherwise insert `context` with an empty distribution (Python
inserts the default on lookup) and return that empty distribution.  The second
component is the table after the lookup. -/
def dictGet : NGramTable → List String → Dist × NGramTable
  | [], c => ([], [(c, [])])
  | (k, d) :: rest, c =>
      if k = c then (d, (k, d) :: rest)
      else
        let p := dictGet rest c
        (p.1, (k, d) :: p.2)

/-- The inverse-CDF walk of `NGramModel.generate_token`: accumulate the
probabilities in dictionary order and return the first token whose cumulative
mass reaches the draw; `none` models `raise Exception('No token was
generated')`. -/
def sampleWalk (r : ℚ) : Dist → ℚ → Option String
  | [], _ => none
  | (w, p) :: rest, acc =>
      if acc + p ≥ r then some w else sampleWalk r rest (acc + p)

/-- `NGramModel.generate_token` with the draw `r` (Python's
`random.random()`) passed explicitly; returns the sampled token (or `none` for
the raised exception) together with the table after the `defaultdict`
lookup. -/
def generate_token (t : NGramTable) (context : List String) (r : ℚ) :
    Option String × NGramTable :=
  let p := dictGet t context
  (sampleWalk r p.1 0, p.2)

/-- The test `token in set(string.punctuation)` of `NGramModel.__call__`: true
exactly when the token is a single punctuation character. -/
def isPunctToken (t : String) : Bool :=
  match t.toList with
  | [c] => isPunct c
  | _ => false

/-- Python's `str.title()` on ASCII text: upper-case every letter that does not
follow a letter, lower-case every letter that does; the boolean records whether
the previous character was a letter. -/
def titleAux : List Char → Bool → List Char
  | [], _ => []
  | c :: cs, prevAlpha =>
      if c.isAlpha then
        (if prevAlpha then c.toLower else c.toUpper) :: titleAux cs true
      else c :: titleAux cs false

/-- Python's `str.title()`. -/
def title (s : String) : String :=
  String.mk (titleAux s.toList false)

/-- The sentence-building step of `NGramModel.__call__` for one sampled
non-terminal token: punctuation is appended with no space, a token arriving
while the sentence is still empty is title-cased, and any other token is
appended after a single space. -/
def stepRender (sentence : String) (token : String) : String :=
  if isPunctToken token then sentence ++ token
  else if sentence = "" then sentence ++ title token
  else sentence ++ " " ++ token

/-- The observable outcome of a run of the `while True` loop of
`NGramModel.__call__`: a returned sentence, the raised no-token exception, or
exhaustion of the supplied draws while the loop is still running. -/
inductive GenResult where
  | ok (sentence : String)
  | error
  | timeout
deriving DecidableEq, Repr

/-- The `while True` loop of `NGramModel.__call__`, consuming one draw per
iteration: sample a token, slide the context window, stop without rendering
when the token is the end marker, otherwise render the token and continue.
The second component is the table after the run (the `defaultdict` lookup can
grow it). -/
def genLoop : List ℚ → NGramTable → List String → String → GenResult × NGramTable
  | [], t, _, _ => (GenResult.timeout, t)
  | r :: draws, t, context, sentence =>
      match generate_token t context r with
      | (none, t2) => (GenResult.error, t2)
      | (some token, t2) =>
          if token = SENTENCE_END_TOKEN then (GenResult.ok sentence, t2)
          else genLoop draws t2 ((context ++ [token]).drop 1) (stepRender sentence token)

/-- `NGramModel.__call__`: run the generation loop from the all-start-marker
context and the empty sentence. -/
def modelCall (n : Nat) (t : NGramTable) (draws : List ℚ) : GenResult × NGramTable :=
  genLoop draws t (List.replicate (n - 1) SENTENCE_START_TOKEN) ""

/-- The same loop as `genLoop`, observed at the Symbol level: it returns the
list of rendered (non-terminal) tokens of a completed run instead of the
rendered sentence string. -/
def genTokensLoop : List ℚ → NGramTable → List String → Option (List String) × NGramTable
  | [], t, _ => (none, t)
  | r :: draws, t, context =>
      match generate_token t context r with
      | (none, t2) => (none, t2)
      | (some token, t2) =>
          if token = SENTENCE_END_TOKEN then (some [], t2)
          else
            let p := genTokensLoop draws t2 ((context ++ [token]).drop 1)
            (p.1.map (fun toks => token :: toks), p.2)

/-- Termination of `NGramModel.__call__` under the stream of draws `seq`: some
finite prefix of the stream makes the loop return a sentence. -/
def generationTerminates (n : Nat) (t : NGramTable) (seq : ℕ → ℚ) : Prop :=
  ∃ k s t2,
    genLoop ((List.range k).map seq) t (List.replicate (n - 1) SENTENCE_START_TOKEN) ""
      = (GenResult.ok s, t2)

/-- The tokens emitted for one stripped trailing punctuation character: the
character itself, followed by the end-of-sentence marker when it is a
sentence-end character. -/
def emitChar (c : Char) : List String :=
  String.mk [c] :: if c ∈ SENTENCE_END_CHARS then [SENTENCE_END_TOKEN] else []

/-- Pure (non-inserting) lookup of a context's distribution, first match. -/
def lookupDist : NGramTable → List String → Option Dist
  | [], _ => none
  | (k, d) :: rest, c => if k = c then some d else lookupDist rest c

/-- Pure lookup of a token's value inside a distribution, first match. -/
def lookupProb : Dist → String → Option ℚ
  | [], _ => none
  | (k, v) :: rest, w => if k = w then some v else lookupProb rest w

/-- The count (or probability) stored for `(c, w)`, `0` when absent. -/
def getCount (t : NGramTable) (c : List String) (w : String) : ℚ :=
  match lookupDist t c with
  | none => 0
  | some d =>
      match lookupProb d w with
      | none => 0
      | some v => v

end Ngram

namespace Ngram

/-! ### Basic lemmas about the tokenizer -/

theorem headD_reverse (l : List Char) (d : Char) :
    l.reverse.headD d = l.getLastD d := by
  induction l using List.reverseRecOn with
  | nil => rfl
  | append_singleton l a _ => simp [List.getLastD_concat]

theorem stripLeading_not_punct (c : Char) (cs : List Char) (h : isPunct c = false) :
    stripLeading (c :: cs) = ([], c :: cs) := by
  simp [stripLeading, h]

theorem stripTrailingRev_punct_prefix (rs : List Char) :
    ∀ cs : List Char, (∀ c ∈ rs, isPunct c = true) → cs ≠ [] →
      isPunct (cs.headD ' ') = false →
      stripTrailingRev (rs ++ cs) = ((rs.map emitChar).flatten, cs) := by
  induction rs with
  | nil =>
      intro cs _ hne hhead
      match cs, hne with
      | c :: cs', _ =>
          simp only [List.headD_cons] at hhead
          simp [stripTrailingRev, hhead]
  | cons c rs ih =>
      intro cs hall hne hhead
      have hc : isPunct c = true := hall c (by simp)
      have hrest : ∀ x ∈ rs, isPunct x = true := fun x hx => hall x (by simp [hx])
      simp [stripTrailingRev, hc, ih cs hrest hne hhead, emitChar]

/-- Claim C5 (counterexample): on the word `a?!` the code emits the stripped
trailing punctuation right-to-left (`!` before `?`), not in the original
left-to-right order (`?` before `!`) stated by the claim. -/
theorem trailing_punct_order_cex :
    tokenize "a?!" = ["a", "!", SENTENCE_END_TOKEN, "?", SENTENCE_END_TOKEN] ∧
      tokenize "a?!" ≠ ["a", "?", SENTENCE_END_TOKEN, "!", SENTENCE_END_TOKEN] := by
  constructor
  · decide
  · decide

/-- Claim C5 (amended): for a raw word consisting of a core that neither
starts nor ends in punctuation followed by a maximal trailing punctuation run,
the trailing run is emitted as individual Symbols in reversed (right-to-left)
order, each sentence-ending character immediately followed by the
end-of-sentence marker. -/
theorem trailing_punct_reversed (core run : List Char)
    (hne : core ≠ []) (hhead : isPunct (core.headD ' ') = false)
    (hlast : isPunct (core.getLastD ' ') = false)
    (hrun : ∀ c ∈ run, isPunct c = true) :
    tokenizeWord (core ++ run) = [String.mk core] ++ (run.reverse.map emitChar).flatten := by
  match core, hne with
  | c0 :: core', _ =>
      have hrevne : (c0 :: core').reverse ≠ [] := by simp
      have hrevhead : isPunct ((c0 :: core').reverse.headD ' ') = false := by
        rw [headD_reverse]; exact hlast
      simp only [List.headD_cons] at hhead
      have hlead : stripLeading ((c0 :: core') ++ run) = ([], (c0 :: core') ++ run) :=
        stripLeading_not_punct c0 (core' ++ run) hhead
      have htrail := stripTrailingRev_punct_prefix run.reverse ((c0 :: core').reverse)
        (by intro c hc; exact hrun c (by simpa using hc)) hrevne hrevhead
      rw [← List.reverse_append] at htrail
      show (stripLeading ((c0 :: core') ++ run)).1 ++
          [String.mk (stripTrailingRev (stripLeading ((c0 :: core') ++ run)).2.reverse).2.reverse]
            ++ (stripTrailingRev (stripLeading ((c0 :: core') ++ run)).2.reverse).1
          = [String.mk (c0 :: core')] ++ (run.reverse.map emitChar).flatten
      rw [hlead]
      show [String.mk (stripTrailingRev (((c0 :: core') ++ run)).reverse).2.reverse]
            ++ (stripTrailingRev (((c0 :: core') ++ run)).reverse).1
          = [String.mk (c0 :: core')] ++ (run.reverse.map emitChar).flatten
      rw [htrail]
      simp

theorem trailing_punct_reversed_witness :
    (['a'] : List Char) ≠ [] ∧
      tokenizeWord (['a'] ++ ['?', '!'])
        = [String.mk ['a']] ++ ((['?', '!'] : List Char).reverse.map emitChar).flatten :=
  ⟨by decide,
    trailing_punct_reversed ['a'] ['?', '!'] (by decide) (by decide) (by decide) (by decide)⟩

/-- Claim C6: tokenizing `"hello, world!"` yields exactly
`["hello", ",", "world", "!", <END>]`: the comma is not sentence-ending, the
exclamation mark is and is followed by the end-of-sentence marker. -/
theorem tokenize_hello_world :
    tokenize "hello, world!" = ["hello", ",", "world", "!", SENTENCE_END_TOKEN] := by
  decide

end Ngram

namespace Ngram

/-! ### Lemmas about the defaultdict lookup -/

theorem dictGet_absent (t : NGramTable) (c : List String) (h : c ∉ keysOf t) :
    dictGet t c = ([], t ++ [(c, [])]) := by
  induction t with
  | nil => rfl
  | cons e rest ih =>
      obtain ⟨k, d⟩ := e
      have hk : k ≠ c := by
        intro hkc
        exact h (by simp [keysOf, hkc])
      have hrest : c ∉ keysOf rest := by
        intro hc
        exact h (by simp [keysOf] at hc ⊢; exact Or.inr hc)
      simp [dictGet, hk, ih hrest]

theorem dictGet_present (t : NGramTable) (c : List String) (h : c ∈ keysOf t) :
    (c, (dictGet t c).1) ∈ t ∧ (dictGet t c).2 = t := by
  induction t with
  | nil => simp [keysOf] at h
  | cons e rest ih =>
      obtain ⟨k, d⟩ := e
      by_cases hk : k = c
      · subst hk
        simp [dictGet]
      · have hrest : c ∈ keysOf rest := by
          simp [keysOf] at h
          rcases h with h | h
          · exact absurd h.symm hk
          · simpa [keysOf] using h
        have := ih hrest
        simp [dictGet, hk, this.1, this.2]

/-- Claim C2: a generation step whose current context is absent from the table
never returns a token: `generate_token` yields the raised exception
(`DataSparsityError` in the spec), and the surrounding generation call
surfaces it to the caller as a failure, not as a sentence string. -/
theorem absent_context_generation_errors (t : NGramTable) (c : List String)
    (r : ℚ) (draws : List ℚ) (s : String) (h : c ∉ keysOf t) :
    (generate_token t c r).1 = none ∧
      genLoop (r :: draws) t c s = (GenResult.error, t ++ [(c, [])]) := by
  have hget : dictGet t c = ([], t ++ [(c, [])]) := dictGet_absent t c h
  constructor
  · simp [generate_token, hget, sampleWalk]
  · simp [genLoop, generate_token, hget, sampleWalk]

theorem absent_context_generation_errors_witness :
    (["x"] ∉ keysOf [(["a"], [("b", (1 : ℚ))])]) ∧
      ((generate_token [(["a"], [("b", (1 : ℚ))])] ["x"] 0).1 = none ∧
        genLoop [(0 : ℚ)] [(["a"], [("b", (1 : ℚ))])] ["x"] ""
          = (GenResult.error, [(["a"], [("b", (1 : ℚ))])] ++ [(["x"], [])])) :=
  ⟨by decide,
    absent_context_generation_errors [(["a"], [("b", (1 : ℚ))])] ["x"] 0 [] "" (by decide)⟩

/-! ### Lemmas about training on empty input -/

theorem countLine_nil (n : Nat) (t : NGramTable) : countLine n t [] = t := by
  have hlen : (List.replicate (n - 1) SENTENCE_START_TOKEN ++ ([] : List String)).length
      = n - 1 := by simp
  show (List.range (List.replicate (n - 1) SENTENCE_START_TOKEN ++ ([] : List String)).length).foldl
      (countStep n (List.replicate (n - 1) SENTENCE_START_TOKEN ++ [])) t = t
  rw [hlen]
  have : ∀ l : List Nat, (∀ i ∈ l, i < n - 1) →
      l.foldl (countStep n (List.replicate (n - 1) SENTENCE_START_TOKEN ++ [])) t = t := by
    intro l
    induction l with
    | nil => intro _; rfl
    | cons i l ih =>
        intro hall
        have hi : i < n - 1 := hall i (by simp)
        have : countStep n (List.replicate (n - 1) SENTENCE_START_TOKEN ++ []) t i = t := by
          simp [countStep, Nat.not_le.mpr hi]
        rw [List.foldl_cons, this]
        exact ih fun j hj => hall j (by simp [hj])
  exact this _ (fun i hi => List.mem_range.mp hi)

/-- Claim C9 (counterexample): on an empty corpus the constructor does not
fail; it returns a model whose table is empty, and the first generation call
then fails with the no-token exception. -/
theorem empty_corpus_no_failfast_cex :
    init_ngram_dict 4 ([] : List (List String)) = [] ∧
      (modelCall 4 (init_ngram_dict 4 ([] : List (List String))) [(0 : ℚ)]).1
        = GenResult.error := by
  constructor
  · rfl
  · decide

/-- Claim C9 (amended): training on zero lines, or on lines that all tokenize
to the empty sequence, does not fail fast: it produces a model whose table has
no entries, and every generation call on that model immediately raises the
no-token error (the `DataSparsityError` of the spec) at its first step. -/
theorem empty_corpus_model_behavior (n : Nat) (corpus : List (List String))
    (r : ℚ) (draws : List ℚ) (h : ∀ l ∈ corpus, l = []) :
    init_ngram_dict n corpus = [] ∧
      (modelCall n (init_ngram_dict n corpus) (r :: draws)).1 = GenResult.error := by
  have hcount : corpus.foldl (countLine n) [] = [] := by
    have : ∀ (cs : List (List String)) (t : NGramTable), (∀ l ∈ cs, l = []) →
        cs.foldl (countLine n) t = t := by
      intro cs
      induction cs with
      | nil => intro t _; rfl
      | cons l cs ih =>
          intro t hall
          have hl : l = [] := hall l (by simp)
          rw [List.foldl_cons, hl, countLine_nil]
          exact ih t fun j hj => hall j (by simp [hj])
    exact this corpus [] h
  have htab : init_ngram_dict n corpus = [] := by
    simp [init_ngram_dict, hcount, normalize]
  refine ⟨htab, ?_⟩
  rw [htab]
  simp [modelCall, genLoop, generate_token, dictGet, sampleWalk]

theorem empty_corpus_model_behavior_witness :
    (∀ l ∈ [([] : List String)], l = []) ∧
      (init_ngram_dict 4 [([] : List String)] = [] ∧
        (modelCall 4 (init_ngram_dict 4 [([] : List String)]) [(0 : ℚ)]).1
          = GenResult.error) :=
  ⟨by decide, empty_corpus_model_behavior 4 [[]] 0 [] (by decide)⟩

end Ngram

namespace Ngram

/-! ### Invariants of the counting pass and of the normalized table -/

theorem bumpWord_ne_nil (d : Dist) (w : String) : bumpWord d w ≠ [] := by
  cases d with
  | nil => simp [bumpWord]
  | cons x rest =>
      obtain ⟨k, v⟩ := x
      by_cases hk : k = w <;> simp [bumpWord, hk]

theorem bumpWord_pos (d : Dist) (w : String) (h : ∀ x ∈ d, 0 < x.2) :
    ∀ x ∈ bumpWord d w, 0 < x.2 := by
  induction d with
  | nil =>
      intro x hx
      simp [bumpWord] at hx
      simp [hx]
  | cons y rest ih =>
      obtain ⟨k, v⟩ := y
      intro x hx
      by_cases hk : k = w
      · simp [bumpWord, hk] at hx
        rcases hx with hx | hx
        · have hv : (0 : ℚ) < v := h (k, v) (by simp)
          simp [hx]
          positivity
        · exact h x (by simp [hx])
      · simp [bumpWord, hk] at hx
        rcases hx with hx | hx
        · exact h x (by simp [hx])
        · exact ih (fun y hy => h y (by simp [hy])) x hx

theorem bumpTable_inv (t : NGramTable) (c : List String) (w : String)
    (h : ∀ e ∈ t, e.2 ≠ [] ∧ ∀ x ∈ e.2, 0 < x.2) :
    ∀ e ∈ bumpTable t c w, e.2 ≠ [] ∧ ∀ x ∈ e.2, 0 < x.2 := by
  induction t with
  | nil =>
      intro e he
      simp [bumpTable] at he
      subst he
      exact ⟨bumpWord_ne_nil [] w, bumpWord_pos [] w (by simp)⟩
  | cons y rest ih =>
      obtain ⟨k, d⟩ := y
      intro e he
      by_cases hk : k = c
      · simp [bumpTable, hk] at he
        rcases he with he | he
        · subst he
          refine ⟨bumpWord_ne_nil d w, bumpWord_pos d w ?_⟩
          exact (h (k, d) (by simp)).2
        · exact h e (by simp [he])
      · simp [bumpTable, hk] at he
        rcases he with he | he
        · exact h e (by simp [he])
        · exact ih (fun y hy => h y (by simp [hy])) e he

theorem countStep_pos_inv (n : Nat) (padded : List String) (t : NGramTable) (i : Nat)
    (h : ∀ e ∈ t, e.2 ≠ [] ∧ ∀ x ∈ e.2, 0 < x.2) :
    ∀ e ∈ countStep n padded t i, e.2 ≠ [] ∧ ∀ x ∈ e.2, 0 < x.2 := by
  by_cases hi : n - 1 ≤ i
  · simpa [countStep, hi] using bumpTable_inv t (windowAt n padded i) (padded.getD i "") h
  · simpa [countStep, hi] using h

theorem foldl_countStep_pos_inv (n : Nat) (padded : List String) (l : List Nat) :
    ∀ (t : NGramTable), (∀ e ∈ t, e.2 ≠ [] ∧ ∀ x ∈ e.2, 0 < x.2) →
      ∀ e ∈ l.foldl (countStep n padded) t, e.2 ≠ [] ∧ ∀ x ∈ e.2, 0 < x.2 := by
  induction l with
  | nil => intro t h; exact h
  | cons i l ih =>
      intro t h
      rw [List.foldl_cons]
      exact ih _ (countStep_pos_inv n padded t i h)

theorem countLine_pos_inv (n : Nat) (tokens : List String) (t : NGramTable)
    (h : ∀ e ∈ t, e.2 ≠ [] ∧ ∀ x ∈ e.2, 0 < x.2) :
    ∀ e ∈ countLine n t tokens, e.2 ≠ [] ∧ ∀ x ∈ e.2, 0 < x.2 :=
  foldl_countStep_pos_inv n _ _ t h

theorem foldl_countLine_pos_inv (n : Nat) (cs : List (List String)) :
    ∀ (t : NGramTable), (∀ e ∈ t, e.2 ≠ [] ∧ ∀ x ∈ e.2, 0 < x.2) →
      ∀ e ∈ cs.foldl (countLine n) t, e.2 ≠ [] ∧ ∀ x ∈ e.2, 0 < x.2 := by
  induction cs with
  | nil => intro t h; exact h
  | cons tokens cs ih =>
      intro t h
      rw [List.foldl_cons]
      exact ih _ (countLine_pos_inv n tokens t h)

theorem counts_inv (n : Nat) (corpus : List (List String)) :
    ∀ e ∈ corpus.foldl (countLine n) [], e.2 ≠ [] ∧ ∀ x ∈ e.2, 0 < x.2 :=
  foldl_countLine_pos_inv n corpus [] (by simp)

theorem dist_sum_pos (d : Dist) (hne : d ≠ []) (hpos : ∀ x ∈ d, 0 < x.2) :
    0 < (d.map Prod.snd).sum := by
  induction d with
  | nil => exact absurd rfl hne
  | cons x rest ih =>
      rw [List.map_cons, List.sum_cons]
      have hx : 0 < x.2 := hpos x (by simp)
      cases rest with
      | nil => simpa using hx
      | cons y t =>
          have := ih (by simp) (fun z hz => hpos z (by simp [hz]))
          positivity

theorem dist_sum_map_div (d : Dist) (T : ℚ) :
    ((d.map fun x => (x.1, x.2 / T)).map Prod.snd).sum = (d.map Prod.snd).sum / T := by
  induction d with
  | nil => simp
  | cons x rest ih =>
      simp only [List.map_cons, List.sum_cons, ih]
      rw [add_div]

theorem trained_inv (n : Nat) (corpus : List (List String)) :
    ∀ e ∈ init_ngram_dict n corpus,
      e.2 ≠ [] ∧ (e.2.map Prod.snd).sum = 1 ∧ ∀ x ∈ e.2, 0 < x.2 := by
  intro e he
  simp only [init_ngram_dict, normalize, List.mem_map] at he
  obtain ⟨e0, he0, heq⟩ := he
  obtain ⟨hne, hpos⟩ := counts_inv n corpus e0 he0
  have hT : 0 < (e0.2.map Prod.snd).sum := dist_sum_pos e0.2 hne hpos
  subst heq
  refine ⟨by simpa using hne, ?_, ?_⟩
  · rw [dist_sum_map_div]
    exact div_self (ne_of_gt hT)
  · intro x hx
    simp only [List.mem_map] at hx
    obtain ⟨x0, hx0, hxeq⟩ := hx
    subst hxeq
    exact div_pos (hpos x0 hx0) hT

/-- Claim C1: in the table built by training, every present context's
distribution has probabilities summing exactly to `1` over exact rational
arithmetic. -/
theorem trained_distributions_sum_to_one (corpus : List (List String)) (n : Nat)
    (hn : 1 ≤ n) (c : List String) (d : Dist)
    (h : (c, d) ∈ init_ngram_dict n corpus) :
    (d.map Prod.snd).sum = 1 :=
  (trained_inv n corpus (c, d) h).2.1

theorem table_one_a_eval : init_ngram_dict 1 [["a"]] = [([], [("a", (1 : ℚ))])] := by
  norm_num +decide [init_ngram_dict, countLine, countStep, windowAt, normalize,
    bumpTable, bumpWord, SENTENCE_START_TOKEN, List.range_succ]

theorem trained_distributions_sum_to_one_witness :
    1 ≤ 1 ∧ (([], [("a", (1 : ℚ))]) ∈ init_ngram_dict 1 [["a"]]) ∧
      (([("a", (1 : ℚ))].map Prod.snd).sum = 1) := by
  have hmem : (([] : List String), [("a", (1 : ℚ))]) ∈ init_ngram_dict 1 [["a"]] := by
    rw [table_one_a_eval]
    simp
  exact ⟨le_refl 1, hmem,
    trained_distributions_sum_to_one [["a"]] 1 (le_refl 1) [] [("a", (1 : ℚ))] hmem⟩

end Ngram

namespace Ngram

/-! ### The inverse-CDF walk always succeeds on a trained distribution -/

theorem sampleWalk_isSome (r : ℚ) :
    ∀ (d : Dist) (acc : ℚ), d ≠ [] → r ≤ acc + (d.map Prod.snd).sum →
      (sampleWalk r d acc).isSome := by
  intro d
  induction d with
  | nil => intro acc h _; exact absurd rfl h
  | cons x rest ih =>
      obtain ⟨w, p⟩ := x
      intro acc _ hsum
      by_cases hge : acc + p ≥ r
      · simp [sampleWalk, hge]
      · cases rest with
        | nil =>
            exfalso
            apply hge
            simpa using hsum
        | cons y t =>
            have : r ≤ (acc + p) + ((((y :: t) : Dist).map Prod.snd).sum) := by
              rw [List.map_cons, List.sum_cons] at hsum
              linarith
            have := ih (acc + p) (by simp) this
            simpa [sampleWalk, hge] using this

theorem sampleWalk_mem (r : ℚ) :
    ∀ (d : Dist) (acc : ℚ) (w : String), sampleWalk r d acc = some w →
      ∃ p, (w, p) ∈ d := by
  intro d
  induction d with
  | nil => intro acc w h; simp [sampleWalk] at h
  | cons x rest ih =>
      obtain ⟨k, p⟩ := x
      intro acc w h
      by_cases hge : acc + p ≥ r
      · simp [sampleWalk, hge] at h
        exact ⟨p, by simp [h]⟩
      · simp [sampleWalk, hge] at h
        obtain ⟨q, hq⟩ := ih (acc + p) w h
        exact ⟨q, by simp [hq]⟩

/-- Claim C4: for every context present in a trained table and every draw in
`[0, 1)`, the weighted sampling step of `generate_token` returns some token of
that context's distribution; the raised no-token branch is unreachable because
the distribution's probabilities sum exactly to `1`. -/
theorem sampling_succeeds_on_trained_context (corpus : List (List String)) (n : Nat)
    (c : List String) (r : ℚ) (hn : 1 ≤ n)
    (hc : c ∈ keysOf (init_ngram_dict n corpus)) (h0 : 0 ≤ r) (h1 : r < 1) :
    ∃ w, (generate_token (init_ngram_dict n corpus) c r).1 = some w ∧
      ∃ d p, (c, d) ∈ init_ngram_dict n corpus ∧ (w, p) ∈ d := by
  obtain ⟨hmem, hunch⟩ := dictGet_present (init_ngram_dict n corpus) c hc
  set d := (dictGet (init_ngram_dict n corpus) c).1 with hd
  obtain ⟨hne, hsum, _⟩ := trained_inv n corpus (c, d) hmem
  have hs : (sampleWalk r d 0).isSome := by
    apply sampleWalk_isSome r d 0 hne
    rw [hsum]
    linarith
  obtain ⟨w, hw⟩ := Option.isSome_iff_exists.mp hs
  refine ⟨w, ?_, ?_⟩
  · simpa [generate_token] using hw
  · obtain ⟨p, hp⟩ := sampleWalk_mem r d 0 w hw
    exact ⟨d, p, hmem, hp⟩

theorem sampling_succeeds_on_trained_context_witness :
    1 ≤ 1 ∧ (([] : List String) ∈ keysOf (init_ngram_dict 1 [["a"]])) ∧
      (0 : ℚ) ≤ 0 ∧ (0 : ℚ) < 1 ∧
      (∃ w, (generate_token (init_ngram_dict 1 [["a"]]) [] 0).1 = some w ∧
        ∃ d p, (([] : List String), d) ∈ init_ngram_dict 1 [["a"]] ∧ (w, p) ∈ d) := by
  have hkey : ([] : List String) ∈ keysOf (init_ngram_dict 1 [["a"]]) := by
    rw [table_one_a_eval]
    simp [keysOf]
  exact ⟨le_refl 1, hkey, le_refl 0, by norm_num,
    sampling_succeeds_on_trained_context [["a"]] 1 [] 0 (le_refl 1) hkey (le_refl 0)
      (by norm_num)⟩

end Ngram

namespace Ngram

/-! ### How the table evolves during generation -/

theorem dictGet_extends (t : NGramTable) (c : List String) :
    ∃ extra, (dictGet t c).2 = t ++ extra ∧ ∀ e ∈ extra, e.2 = ([] : Dist) := by
  by_cases hc : c ∈ keysOf t
  · exact ⟨[], by simp [(dictGet_present t c hc).2], by simp⟩
  · exact ⟨[(c, [])], by simp [dictGet_absent t c hc], by simp⟩

theorem genLoop_extends (draws : List ℚ) :
    ∀ (t : NGramTable) (c : List String) (s : String),
      ∃ extra, (genLoop draws t c s).2 = t ++ extra ∧ ∀ e ∈ extra, e.2 = ([] : Dist) := by
  induction draws with
  | nil => intro t c s; exact ⟨[], by simp [genLoop], by simp⟩
  | cons r draws ih =>
      intro t c s
      obtain ⟨extra1, hext1, hemp1⟩ := dictGet_extends t c
      cases htok : sampleWalk r (dictGet t c).1 0 with
      | none =>
          refine ⟨extra1, ?_, hemp1⟩
          simp [genLoop, generate_token, htok, hext1]
      | some token =>
          by_cases hEnd : token = SENTENCE_END_TOKEN
          · refine ⟨extra1, ?_, hemp1⟩
            simp [genLoop, generate_token, htok, hEnd, hext1]
          · obtain ⟨extra2, hext2, hemp2⟩ :=
              ih (dictGet t c).2 ((c ++ [token]).drop 1) (stepRender s token)
            refine ⟨extra1 ++ extra2, ?_, ?_⟩
            · have : genLoop (r :: draws) t c s
                  = genLoop draws (dictGet t c).2 ((c ++ [token]).drop 1)
                      (stepRender s token) := by
                simp [genLoop, generate_token, htok, hEnd]
              rw [this, hext2, hext1, List.append_assoc]
            · intro e he
              rcases List.mem_append.mp he with he | he
              · exact hemp1 e he
              · exact hemp2 e he

/-- Claim C3 (amended): a generation call leaves every existing table entry
(its contexts and distributions) unchanged, but may grow the table by
appending entries whose distributions are empty, one for each absent context
reached by the call (the `defaultdict` lookup inserts them). -/
theorem generation_table_growth_only (n : Nat) (t : NGramTable) (draws : List ℚ) :
    ∃ extra, (modelCall n t draws).2 = t ++ extra ∧ ∀ e ∈ extra, e.2 = ([] : Dist) :=
  genLoop_extends draws t (List.replicate (n - 1) SENTENCE_START_TOKEN) ""

theorem table_ab_eval :
    init_ngram_dict 2 [["a", "b"]]
      = [([SENTENCE_START_TOKEN], [("a", (1 : ℚ))]), (["a"], [("b", (1 : ℚ))])] := by
  norm_num +decide [init_ngram_dict, countLine, countStep, windowAt, normalize,
    bumpTable, bumpWord, SENTENCE_START_TOKEN, List.range_succ]

/-- Claim C3 (counterexample): a generation call that reaches the untrained
context `["b"]` mutates the supposedly read-only table: the `defaultdict`
lookup inserts that context with an empty distribution, so the table after the
call differs from the table before it. -/
theorem table_mutated_on_absent_context_cex :
    (modelCall 2 (init_ngram_dict 2 [["a", "b"]]) [0, 0, 0]).2
      ≠ init_ngram_dict 2 [["a", "b"]] := by
  rw [table_ab_eval]
  norm_num +decide [modelCall, genLoop, generate_token, dictGet, sampleWalk,
    SENTENCE_START_TOKEN, SENTENCE_END_TOKEN, stepRender, isPunctToken, title,
    titleAux, isPunct]

end Ngram

namespace Ngram

/-! ### The rendered sentence is the fold of the rendering step over the
sampled tokens -/

theorem genLoop_ok_trace (draws : List ℚ) :
    ∀ (t : NGramTable) (c : List String) (s out : String) (t2 : NGramTable),
      genLoop draws t c s = (GenResult.ok out, t2) →
      ∃ toks, genTokensLoop draws t c = (some toks, t2) ∧
        out = toks.foldl stepRender s ∧ SENTENCE_END_TOKEN ∉ toks := by
  induction draws with
  | nil =>
      intro t c s out t2 h
      simp [genLoop] at h
  | cons r draws ih =>
      intro t c s out t2 h
      cases htok : sampleWalk r (dictGet t c).1 0 with
      | none => simp [genLoop, generate_token, htok] at h
      | some token =>
          by_cases hEnd : token = SENTENCE_END_TOKEN
          · simp [genLoop, generate_token, htok, hEnd] at h
            refine ⟨[], ?_, by simp [h.1], by simp⟩
            simp [genTokensLoop, generate_token, htok, hEnd, h.2]
          · simp only [genLoop, generate_token, htok, hEnd, if_false] at h
            obtain ⟨toks, htrace, hout, hnoend⟩ :=
              ih (dictGet t c).2 ((c ++ [token]).drop 1) (stepRender s token) out t2 h
            refine ⟨token :: toks, ?_, ?_, ?_⟩
            · simp only [List.drop_one] at htrace
              simp [genTokensLoop, generate_token, htok, hEnd, htrace]
            · simpa [List.foldl_cons] using hout
            · simp only [List.mem_cons, not_or]
              exact ⟨fun hx => hEnd hx.symm, hnoend⟩

/-- Claim C7 (amended): whenever a generation call returns a sentence, that
sentence is exactly the left fold of the rendering step over the sequence of
sampled non-terminal tokens starting from the empty string, and the
end-of-sentence marker is never among the rendered tokens; the rendering step
appends a punctuation Symbol with no preceding space, title-cases a Symbol
sampled while the accumulated output is still empty (hence the first word of a
sentence that starts with a word — but not one that follows earlier
punctuation output), and otherwise separates the Symbol from the preceding
text by exactly one space. -/
theorem render_policy_amended (draws : List ℚ) (n : Nat) (t : NGramTable)
    (out : String) (t2 : NGramTable)
    (h : modelCall n t draws = (GenResult.ok out, t2)) :
    (∃ toks, genTokensLoop draws t (List.replicate (n - 1) SENTENCE_START_TOKEN)
        = (some toks, t2) ∧ out = toks.foldl stepRender "" ∧
          SENTENCE_END_TOKEN ∉ toks) ∧
      (∀ s tok, isPunctToken tok = true → stepRender s tok = s ++ tok) ∧
      (∀ tok, isPunctToken tok = false → stepRender "" tok = title tok) ∧
      (∀ s tok, isPunctToken tok = false → s ≠ "" → stepRender s tok = s ++ " " ++ tok) := by
  refine ⟨genLoop_ok_trace draws t _ "" out t2 h, ?_, ?_, ?_⟩
  · intro s tok htok
    simp [stepRender, htok]
  · intro tok htok
    simp [stepRender, htok]
  · intro s tok htok hs
    simp [stepRender, htok, hs]

theorem gen_end_eval :
    modelCall 1 [([], [("a", (1 : ℚ)/2), ("<end>", (1 : ℚ)/2)])] [(3 : ℚ)/4]
      = (GenResult.ok "",
          [([], [("a", (1 : ℚ)/2), ("<end>", (1 : ℚ)/2)])]) := by
  norm_num +decide [modelCall, genLoop, generate_token, dictGet, sampleWalk,
    SENTENCE_END_TOKEN, SENTENCE_START_TOKEN]

theorem render_policy_amended_witness :
    modelCall 1 [([], [("a", (1 : ℚ)/2), ("<end>", (1 : ℚ)/2)])] [(3 : ℚ)/4]
        = (GenResult.ok "", [([], [("a", (1 : ℚ)/2), ("<end>", (1 : ℚ)/2)])]) ∧
      ((∃ toks, genTokensLoop [(3 : ℚ)/4] [([], [("a", (1 : ℚ)/2), ("<end>", (1 : ℚ)/2)])]
          (List.replicate (1 - 1) SENTENCE_START_TOKEN)
          = (some toks, [([], [("a", (1 : ℚ)/2), ("<end>", (1 : ℚ)/2)])]) ∧
            "" = toks.foldl stepRender "" ∧ SENTENCE_END_TOKEN ∉ toks) ∧
        (∀ s tok, isPunctToken tok = true → stepRender s tok = s ++ tok) ∧
        (∀ tok, isPunctToken tok = false → stepRender "" tok = title tok) ∧
        (∀ s tok, isPunctToken tok = false → s ≠ "" → stepRender s tok = s ++ " " ++ tok)) :=
  ⟨gen_end_eval,
    render_policy_amended [(3 : ℚ)/4] 1 [([], [("a", (1 : ℚ)/2), ("<end>", (1 : ℚ)/2)])]
      "" [([], [("a", (1 : ℚ)/2), ("<end>", (1 : ℚ)/2)])] gen_end_eval⟩

theorem tokenize_comma_a : tokenize ", a!" = [",", "", "a", "!", "<end>"] := by
  decide

theorem table_comma_a_eval :
    init_ngram_dict 1 [tokenize ", a!"]
      = [([], [(",", (1 : ℚ)/5), ("", (1 : ℚ)/5), ("a", (1 : ℚ)/5), ("!", (1 : ℚ)/5),
          ("<end>", (1 : ℚ)/5)])] := by
  rw [tokenize_comma_a]
  norm_num +decide [init_ngram_dict, countLine, countStep, windowAt, normalize,
    bumpTable, bumpWord, SENTENCE_START_TOKEN, List.range_succ]

/-- Claim C7 (counterexample): when the first sampled Symbol is punctuation,
the first real word is NOT capitalized: on the table trained from `", a!"`
with n = 1 there is a run sampling `","`, then `"a"`, then the end marker,
and the returned sentence is `", a"`, not `", A"`. -/
theorem render_first_word_not_capitalized_cex :
    (modelCall 1 (init_ngram_dict 1 [tokenize ", a!"]) [(1 : ℚ)/10, 1/2, 9/10]).1
        = GenResult.ok ", a" ∧
      title "a" = "A" ∧ (", a" : String) ≠ ", A" := by
  refine ⟨?_, by decide, by decide⟩
  rw [table_comma_a_eval]
  norm_num +decide [modelCall, genLoop, generate_token, dictGet, sampleWalk,
    SENTENCE_END_TOKEN, SENTENCE_START_TOKEN, stepRender, isPunctToken, title,
    titleAux, isPunct]

end Ngram

namespace Ngram

/-! ### The start marker is never a counted next-token and never generated -/

theorem bumpWord_no_start (d : Dist) (w : String) (hw : w ≠ SENTENCE_START_TOKEN)
    (h : ∀ x ∈ d, x.1 ≠ SENTENCE_START_TOKEN) :
    ∀ x ∈ bumpWord d w, x.1 ≠ SENTENCE_START_TOKEN := by
  induction d with
  | nil =>
      intro x hx
      simp [bumpWord] at hx
      simp [hx, hw]
  | cons y rest ih =>
      obtain ⟨k, v⟩ := y
      intro x hx
      by_cases hk : k = w
      · simp [bumpWord, hk] at hx
        rcases hx with hx | hx
        · simpa [hx] using hw
        · exact h x (by simp [hx])
      · simp [bumpWord, hk] at hx
        rcases hx with hx | hx
        · exact h x (by simp [hx])
        · exact ih (fun y hy => h y (by simp [hy])) x hx

theorem bumpTable_no_start (t : NGramTable) (c : List String) (w : String)
    (hw : w ≠ SENTENCE_START_TOKEN)
    (h : ∀ e ∈ t, ∀ x ∈ e.2, x.1 ≠ SENTENCE_START_TOKEN) :
    ∀ e ∈ bumpTable t c w, ∀ x ∈ e.2, x.1 ≠ SENTENCE_START_TOKEN := by
  induction t with
  | nil =>
      intro e he
      simp [bumpTable] at he
      subst he
      exact bumpWord_no_start [] w hw (by simp)
  | cons y rest ih =>
      obtain ⟨k, d⟩ := y
      intro e he
      by_cases hk : k = c
      · simp [bumpTable, hk] at he
        rcases he with he | he
        · subst he
          exact bumpWord_no_start d w hw ((h (k, d) (by simp)))
        · exact h e (by simp [he])
      · simp [bumpTable, hk] at he
        rcases he with he | he
        · exact h e (by simp [he])
        · exact ih (fun y hy => h y (by simp [hy])) e he

theorem padded_getD_ne_start (n : Nat) (L : List String) (i : Nat) (hi : n - 1 ≤ i)
    (hL : SENTENCE_START_TOKEN ∉ L) :
    (List.replicate (n - 1) SENTENCE_START_TOKEN ++ L).getD i "" ≠ SENTENCE_START_TOKEN := by
  rw [List.getD_eq_getElem?_getD, List.getElem?_append_right (by simpa using hi)]
  cases hx : L[i - (List.replicate (n - 1) SENTENCE_START_TOKEN).length]? with
  | none => simp [SENTENCE_START_TOKEN]
  | some x =>
      have hmem : x ∈ L := List.getElem?_mem hx
      simp only [hx, Option.getD_some]
      intro hcontra
      rw [hcontra] at hmem
      exact hL hmem

theorem counts_no_start (n : Nat) (corpus : List (List String))
    (hc : ∀ L ∈ corpus, SENTENCE_START_TOKEN ∉ L) :
    ∀ e ∈ corpus.foldl (countLine n) [], ∀ x ∈ e.2, x.1 ≠ SENTENCE_START_TOKEN := by
  have hline : ∀ (L : List String), SENTENCE_START_TOKEN ∉ L → ∀ (t : NGramTable),
      (∀ e ∈ t, ∀ x ∈ e.2, x.1 ≠ SENTENCE_START_TOKEN) →
      ∀ e ∈ countLine n t L, ∀ x ∈ e.2, x.1 ≠ SENTENCE_START_TOKEN := by
    intro L hL
    show ∀ (t : NGramTable), _ → ∀ e ∈ (List.range
        (List.replicate (n - 1) SENTENCE_START_TOKEN ++ L).length).foldl
        (countStep n (List.replicate (n - 1) SENTENCE_START_TOKEN ++ L)) t, _
    generalize (List.range (List.replicate (n - 1) SENTENCE_START_TOKEN ++ L).length) = idxs
    induction idxs with
    | nil => intro t h; exact h
    | cons i idxs ih =>
        intro t h
        rw [List.foldl_cons]
        apply ih
        by_cases hi : n - 1 ≤ i
        · have hw := padded_getD_ne_start n L i hi hL
          simpa [countStep, hi] using
            bumpTable_no_start t (windowAt n (List.replicate (n - 1) SENTENCE_START_TOKEN ++ L) i)
              ((List.replicate (n - 1) SENTENCE_START_TOKEN ++ L).getD i "") hw h
        · simpa [countStep, hi] using h
  have hcorp : ∀ (cs : List (List String)), (∀ L ∈ cs, SENTENCE_START_TOKEN ∉ L) →
      ∀ (t : NGramTable), (∀ e ∈ t, ∀ x ∈ e.2, x.1 ≠ SENTENCE_START_TOKEN) →
      ∀ e ∈ cs.foldl (countLine n) t, ∀ x ∈ e.2, x.1 ≠ SENTENCE_START_TOKEN := by
    intro cs
    induction cs with
    | nil => intro _ t h; exact h
    | cons L cs ih =>
        intro hall t h
        rw [List.foldl_cons]
        exact ih (fun j hj => hall j (by simp [hj])) _
          (hline L (hall L (by simp)) t h)
  exact hcorp corpus hc [] (by simp)

theorem normalize_no_start (t : NGramTable)
    (h : ∀ e ∈ t, ∀ x ∈ e.2, x.1 ≠ SENTENCE_START_TOKEN) :
    ∀ e ∈ normalize t, ∀ x ∈ e.2, x.1 ≠ SENTENCE_START_TOKEN := by
  intro e he x hx
  simp only [normalize, List.mem_map] at he
  obtain ⟨e0, he0, heq⟩ := he
  subst heq
  simp only [List.mem_map] at hx
  obtain ⟨x0, hx0, hxeq⟩ := hx
  subst hxeq
  exact h e0 he0 x0 hx0

theorem dictGet_dist_entries (t : NGramTable) (c : List String) :
    ∀ x ∈ (dictGet t c).1, ∃ e ∈ t, x ∈ e.2 := by
  induction t with
  | nil => intro x hx; simp [dictGet] at hx
  | cons y rest ih =>
      obtain ⟨k, d⟩ := y
      intro x hx
      by_cases hk : k = c
      · exact ⟨(k, d), by simp, by simpa [dictGet, hk] using hx⟩
      · obtain ⟨e, he, hxe⟩ := ih x (by simpa [dictGet, hk] using hx)
        exact ⟨e, by simp [he], hxe⟩

theorem dictGet_no_start (t : NGramTable) (c : List String)
    (h : ∀ e ∈ t, ∀ x ∈ e.2, x.1 ≠ SENTENCE_START_TOKEN) :
    ∀ e ∈ (dictGet t c).2, ∀ x ∈ e.2, x.1 ≠ SENTENCE_START_TOKEN := by
  obtain ⟨extra, hext, hemp⟩ := dictGet_extends t c
  rw [hext]
  intro e he
  rcases List.mem_append.mp he with he | he
  · exact h e he
  · intro x hx
    rw [hemp e he] at hx
    simp at hx

theorem genTokensLoop_no_start (draws : List ℚ) :
    ∀ (t : NGramTable) (c : List String) (toks : List String) (t2 : NGramTable),
      (∀ e ∈ t, ∀ x ∈ e.2, x.1 ≠ SENTENCE_START_TOKEN) →
      genTokensLoop draws t c = (some toks, t2) →
      SENTENCE_START_TOKEN ∉ toks := by
  induction draws with
  | nil =>
      intro t c toks t2 _ h
      simp [genTokensLoop] at h
  | cons r draws ih =>
      intro t c toks t2 hns h
      cases htok : sampleWalk r (dictGet t c).1 0 with
      | none => simp [genTokensLoop, generate_token, htok] at h
      | some token =>
          have htokns : token ≠ SENTENCE_START_TOKEN := by
            obtain ⟨p, hp⟩ := sampleWalk_mem r (dictGet t c).1 0 token htok
            obtain ⟨e, he, hxe⟩ := dictGet_dist_entries t c (token, p) hp
            exact hns e he (token, p) hxe
          by_cases hEnd : token = SENTENCE_END_TOKEN
          · simp [genTokensLoop, generate_token, htok, hEnd] at h
            obtain ⟨h1, h2⟩ := h
            subst h1
            simp
          · simp only [genTokensLoop, generate_token, htok, hEnd, if_false] at h
            cases hrec : (genTokensLoop draws (dictGet t c).2 ((c ++ [token]).drop 1)).1 with
            | none => rw [hrec] at h; simp at h
            | some toks' =>
                rw [hrec, Prod.mk.injEq] at h
                have h1 : token :: toks' = toks := by
                  have := h.1
                  rw [Option.map_some'] at this
                  exact Option.some.inj this
                have hnotin : SENTENCE_START_TOKEN ∉ toks' := by
                  apply ih (dictGet t c).2 ((c ++ [token]).drop 1) toks'
                    (genTokensLoop draws (dictGet t c).2 ((c ++ [token]).drop 1)).2
                    (dictGet_no_start t c hns)
                  rw [← hrec]
                rw [← h1]
                simp only [List.mem_cons, not_or]
                exact ⟨fun hx => htokns hx.symm, hnotin⟩

/-- Claim C10: if the start marker occurs in no corpus line, then no
distribution of the trained table assigns probability to the start marker
(it appears only inside contexts, never as a counted next-token), and
consequently the start marker is never among the Symbols of a generated
sentence. -/
theorem start_token_never_generated (n : Nat) (corpus : List (List String))
    (hc : ∀ L ∈ corpus, SENTENCE_START_TOKEN ∉ L) :
    (∀ e ∈ init_ngram_dict n corpus, ∀ x ∈ e.2, x.1 ≠ SENTENCE_START_TOKEN) ∧
      ∀ (draws : List ℚ) (toks : List String) (t2 : NGramTable),
        genTokensLoop draws (init_ngram_dict n corpus)
            (List.replicate (n - 1) SENTENCE_START_TOKEN) = (some toks, t2) →
        SENTENCE_START_TOKEN ∉ toks := by
  have htab : ∀ e ∈ init_ngram_dict n corpus, ∀ x ∈ e.2, x.1 ≠ SENTENCE_START_TOKEN :=
    normalize_no_start _ (counts_no_start n corpus hc)
  refine ⟨htab, ?_⟩
  intro draws toks t2 h
  exact genTokensLoop_no_start draws _ _ toks t2 htab h

theorem start_token_never_generated_witness :
    (∀ L ∈ [["a", "b"]], SENTENCE_START_TOKEN ∉ L) ∧
      ((∀ e ∈ init_ngram_dict 2 [["a", "b"]], ∀ x ∈ e.2, x.1 ≠ SENTENCE_START_TOKEN) ∧
        ∀ (draws : List ℚ) (toks : List String) (t2 : NGramTable),
          genTokensLoop draws (init_ngram_dict 2 [["a", "b"]])
              (List.replicate (2 - 1) SENTENCE_START_TOKEN) = (some toks, t2) →
          SENTENCE_START_TOKEN ∉ toks) :=
  ⟨by decide, start_token_never_generated 2 [["a", "b"]] (by decide)⟩

end Ngram

namespace Ngram

/-! ### Counts of individual (context, word) pairs during training -/

theorem lookupDist_mem (t : NGramTable) (c : List String) (d : Dist)
    (h : lookupDist t c = some d) : (c, d) ∈ t := by
  induction t with
  | nil => simp [lookupDist] at h
  | cons y rest ih =>
      obtain ⟨k, d0⟩ := y
      by_cases hk : k = c
      · subst hk
        simp [lookupDist] at h
        simp [h]
      · simp [lookupDist, hk] at h
        simp [ih h]

theorem lookupProb_mem (d : Dist) (w : String) (v : ℚ)
    (h : lookupProb d w = some v) : (w, v) ∈ d := by
  induction d with
  | nil => simp [lookupProb] at h
  | cons y rest ih =>
      obtain ⟨k, v0⟩ := y
      by_cases hk : k = w
      · subst hk
        simp [lookupProb] at h
        simp [h]
      · simp [lookupProb, hk] at h
        simp [ih h]

theorem getCount_eq_lookups (t : NGramTable) (c : List String) (w : String) :
    getCount t c w = (lookupProb ((lookupDist t c).getD []) w).getD 0 := by
  cases hd : lookupDist t c with
  | none => simp [getCount, hd, lookupProb]
  | some d =>
      cases hp : lookupProb d w with
      | none => simp [getCount, hd, hp]
      | some v => simp [getCount, hd, hp]

theorem getCount_nonneg (t : NGramTable) (c : List String) (w : String)
    (h : ∀ e ∈ t, e.2 ≠ [] ∧ ∀ x ∈ e.2, 0 < x.2) : 0 ≤ getCount t c w := by
  cases hd : lookupDist t c with
  | none => simp [getCount, hd]
  | some d =>
      cases hp : lookupProb d w with
      | none => simp [getCount, hd, hp]
      | some v =>
          have hvd : (w, v) ∈ d := lookupProb_mem d w v hp
          have := (h (c, d) (lookupDist_mem t c d hd)).2 (w, v) hvd
          simp only [getCount, hd, hp]
          exact le_of_lt this

theorem lookupProb_bumpWord_self (d : Dist) (w : String) :
    lookupProb (bumpWord d w) w = some ((lookupProb d w).getD 0 + 1) := by
  induction d with
  | nil => simp [bumpWord, lookupProb]
  | cons y rest ih =>
      obtain ⟨k, v⟩ := y
      by_cases hk : k = w
      · subst hk
        simp [bumpWord, lookupProb]
      · simp [bumpWord, hk, lookupProb, ih]

theorem lookupProb_bumpWord_other (d : Dist) (w w' : String) (hww : w' ≠ w) :
    lookupProb (bumpWord d w) w' = lookupProb d w' := by
  have hww' : ¬(w = w') := fun h => hww h.symm
  induction d with
  | nil => simp [bumpWord, lookupProb, hww']
  | cons y rest ih =>
      obtain ⟨k, v⟩ := y
      by_cases hk : k = w
      · subst hk
        simp [bumpWord, lookupProb, hww']
      · by_cases hk' : k = w'
        · simp [bumpWord, hk, lookupProb, hk', hww]
        · simp [bumpWord, hk, lookupProb, hk', ih]

theorem lookupDist_bumpTable_self (t : NGramTable) (c : List String) (w : String) :
    lookupDist (bumpTable t c w) c = some (bumpWord ((lookupDist t c).getD []) w) := by
  induction t with
  | nil => simp [bumpTable, lookupDist]
  | cons y rest ih =>
      obtain ⟨k, d⟩ := y
      by_cases hk : k = c
      · subst hk
        simp [bumpTable, lookupDist]
      · simp [bumpTable, hk, lookupDist, ih]

theorem lookupDist_bumpTable_other (t : NGramTable) (c c' : List String) (w : String)
    (hcc : c' ≠ c) :
    lookupDist (bumpTable t c w) c' = lookupDist t c' := by
  have hcc' : ¬(c = c') := fun h => hcc h.symm
  induction t with
  | nil => simp [bumpTable, lookupDist, hcc']
  | cons y rest ih =>
      obtain ⟨k, d⟩ := y
      by_cases hk : k = c
      · subst hk
        simp [bumpTable, lookupDist, hcc']
      · by_cases hk' : k = c'
        · simp [bumpTable, hk, lookupDist, hk', hcc]
        · simp [bumpTable, hk, lookupDist, hk', ih]

theorem getCount_bumpTable_self (t : NGramTable) (c : List String) (w : String) :
    getCount (bumpTable t c w) c w = getCount t c w + 1 := by
  rw [getCount_eq_lookups, getCount_eq_lookups, lookupDist_bumpTable_self]
  simp [lookupProb_bumpWord_self]

theorem getCount_bumpTable_mono (t : NGramTable) (c c' : List String) (w w' : String)
    (h : ∀ e ∈ t, e.2 ≠ [] ∧ ∀ x ∈ e.2, 0 < x.2) :
    getCount t c' w' ≤ getCount (bumpTable t c w) c' w' := by
  by_cases hcc : c' = c
  · subst hcc
    by_cases hww : w' = w
    · subst hww
      rw [getCount_bumpTable_self]
      linarith
    · rw [getCount_eq_lookups, getCount_eq_lookups, lookupDist_bumpTable_self,
        Option.getD_some, lookupProb_bumpWord_other _ _ _ hww]
  · rw [getCount_eq_lookups, getCount_eq_lookups, lookupDist_bumpTable_other _ _ _ _ hcc]

end Ngram

namespace Ngram

/-! ### Counts only grow during training -/

theorem getCount_countStep_mono (n : Nat) (padded : List String) (t : NGramTable)
    (i : Nat) (c : List String) (w : String)
    (h : ∀ e ∈ t, e.2 ≠ [] ∧ ∀ x ∈ e.2, 0 < x.2) :
    getCount t c w ≤ getCount (countStep n padded t i) c w := by
  by_cases hi : n - 1 ≤ i
  · simpa [countStep, hi] using
      getCount_bumpTable_mono t (windowAt n padded i) c (padded.getD i "") w h
  · simp [countStep, hi]

theorem getCount_foldl_countStep_mono (n : Nat) (padded : List String) (l : List Nat) :
    ∀ (t : NGramTable), (∀ e ∈ t, e.2 ≠ [] ∧ ∀ x ∈ e.2, 0 < x.2) →
      ∀ (c : List String) (w : String),
        getCount t c w ≤ getCount (l.foldl (countStep n padded) t) c w := by
  induction l with
  | nil => intro t _ c w; exact le_refl _
  | cons i l ih =>
      intro t h c w
      rw [List.foldl_cons]
      exact le_trans (getCount_countStep_mono n padded t i c w h)
        (ih _ (countStep_pos_inv n padded t i h) c w)

theorem getCount_countLine_mono (n : Nat) (L : List String) (t : NGramTable)
    (h : ∀ e ∈ t, e.2 ≠ [] ∧ ∀ x ∈ e.2, 0 < x.2) (c : List String) (w : String) :
    getCount t c w ≤ getCount (countLine n t L) c w :=
  getCount_foldl_countStep_mono n _ _ t h c w

theorem getCount_foldl_countLine_mono (n : Nat) (cs : List (List String)) :
    ∀ (t : NGramTable), (∀ e ∈ t, e.2 ≠ [] ∧ ∀ x ∈ e.2, 0 < x.2) →
      ∀ (c : List String) (w : String),
        getCount t c w ≤ getCount (cs.foldl (countLine n) t) c w := by
  induction cs with
  | nil => intro t _ c w; exact le_refl _
  | cons L cs ih =>
      intro t h c w
      rw [List.foldl_cons]
      exact le_trans (getCount_countLine_mono n L t h c w)
        (ih _ (countLine_pos_inv n L t h) c w)

/-- Every window of a corpus line is counted at least once in the raw counts
table produced by the training pass. -/
theorem pair_counted (n : Nat) (corpus : List (List String)) (L : List String)
    (hL : L ∈ corpus) (i : Nat) (hi : n - 1 ≤ i)
    (hilen : i < (List.replicate (n - 1) SENTENCE_START_TOKEN ++ L).length) :
    1 ≤ getCount (corpus.foldl (countLine n) [])
      (windowAt n (List.replicate (n - 1) SENTENCE_START_TOKEN ++ L) i)
      ((List.replicate (n - 1) SENTENCE_START_TOKEN ++ L).getD i "") := by
  obtain ⟨pre, post, hsplit⟩ := List.append_of_mem hL
  have ht0 : ∀ e ∈ pre.foldl (countLine n) ([] : NGramTable),
      e.2 ≠ [] ∧ ∀ x ∈ e.2, 0 < x.2 := foldl_countLine_pos_inv n pre [] (by simp)
  rw [hsplit, List.foldl_append, List.foldl_cons]
  have h1 : 1 ≤ getCount (countLine n (pre.foldl (countLine n) []) L)
      (windowAt n (List.replicate (n - 1) SENTENCE_START_TOKEN ++ L) i)
      ((List.replicate (n - 1) SENTENCE_START_TOKEN ++ L).getD i "") := by
    have hmem : i ∈ List.range (List.replicate (n - 1) SENTENCE_START_TOKEN ++ L).length :=
      List.mem_range.mpr hilen
    obtain ⟨s1, s2, hrs⟩ := List.append_of_mem hmem
    show 1 ≤ getCount
      ((List.range (List.replicate (n - 1) SENTENCE_START_TOKEN ++ L).length).foldl
        (countStep n (List.replicate (n - 1) SENTENCE_START_TOKEN ++ L))
        (pre.foldl (countLine n) [])) _ _
    rw [hrs, List.foldl_append, List.foldl_cons]
    have ht1 : ∀ e ∈ s1.foldl (countStep n (List.replicate (n - 1) SENTENCE_START_TOKEN ++ L))
        (pre.foldl (countLine n) []), e.2 ≠ [] ∧ ∀ x ∈ e.2, 0 < x.2 :=
      foldl_countStep_pos_inv n _ s1 _ ht0
    have hbump : countStep n (List.replicate (n - 1) SENTENCE_START_TOKEN ++ L)
        (s1.foldl (countStep n (List.replicate (n - 1) SENTENCE_START_TOKEN ++ L))
          (pre.foldl (countLine n) [])) i
        = bumpTable (s1.foldl (countStep n (List.replicate (n - 1) SENTENCE_START_TOKEN ++ L))
            (pre.foldl (countLine n) []))
          (windowAt n (List.replicate (n - 1) SENTENCE_START_TOKEN ++ L) i)
          ((List.replicate (n - 1) SENTENCE_START_TOKEN ++ L).getD i "") := by
      simp [countStep, hi]
    have hge : 1 ≤ getCount (countStep n (List.replicate (n - 1) SENTENCE_START_TOKEN ++ L)
        (s1.foldl (countStep n (List.replicate (n - 1) SENTENCE_START_TOKEN ++ L))
          (pre.foldl (countLine n) [])) i)
        (windowAt n (List.replicate (n - 1) SENTENCE_START_TOKEN ++ L) i)
        ((List.replicate (n - 1) SENTENCE_START_TOKEN ++ L).getD i "") := by
      rw [hbump, getCount_bumpTable_self]
      have := getCount_nonneg _
        (windowAt n (List.replicate (n - 1) SENTENCE_START_TOKEN ++ L) i)
        ((List.replicate (n - 1) SENTENCE_START_TOKEN ++ L).getD i "") ht1
      linarith
    exact le_trans hge (getCount_foldl_countStep_mono n _ s2 _
      (countStep_pos_inv n _ _ i ht1) _ _)
  have ht2 : ∀ e ∈ countLine n (pre.foldl (countLine n) []) L,
      e.2 ≠ [] ∧ ∀ x ∈ e.2, 0 < x.2 := countLine_pos_inv n L _ ht0
  exact le_trans h1 (getCount_foldl_countLine_mono n post _ ht2 _ _)

end Ngram

namespace Ngram

/-! ### Selecting a specific positively-weighted token by a suitable draw -/

theorem lookupDist_normalize (t : NGramTable) (c : List String) :
    lookupDist (normalize t) c
      = (lookupDist t c).map (fun d => d.map (fun x => (x.1, x.2 / (d.map Prod.snd).sum))) := by
  induction t with
  | nil => simp [normalize, lookupDist]
  | cons y rest ih =>
      obtain ⟨k, d⟩ := y
      by_cases hk : k = c
      · subst hk
        simp [normalize, lookupDist]
      · simp [normalize, lookupDist, hk] at ih ⊢
        exact ih

theorem lookupProb_split (d : Dist) (w : String) (v : ℚ)
    (h : lookupProb d w = some v) : ∃ d₁ d₂, d = d₁ ++ (w, v) :: d₂ := by
  induction d with
  | nil => simp [lookupProb] at h
  | cons y rest ih =>
      obtain ⟨k, v0⟩ := y
      by_cases hk : k = w
      · subst hk
        simp [lookupProb] at h
        exact ⟨[], rest, by simp [h]⟩
      · simp [lookupProb, hk] at h
        obtain ⟨d₁, d₂, hd⟩ := ih h
        exact ⟨(k, v0) :: d₁, d₂, by simp [hd]⟩

theorem dist_sum_nonneg (d : Dist) (h : ∀ x ∈ d, 0 ≤ x.2) :
    0 ≤ (d.map Prod.snd).sum := by
  induction d with
  | nil => simp
  | cons x rest ih =>
      rw [List.map_cons, List.sum_cons]
      have hx : 0 ≤ x.2 := h x (by simp)
      have := ih (fun y hy => h y (by simp [hy]))
      linarith

theorem sampleWalk_select (w : String) (p : ℚ) (d₂ : Dist) :
    ∀ (d₁ : Dist) (acc r : ℚ), (∀ x ∈ d₁, 0 ≤ x.2) →
      acc + (d₁.map Prod.snd).sum < r → r ≤ acc + (d₁.map Prod.snd).sum + p →
      sampleWalk r (d₁ ++ (w, p) :: d₂) acc = some w := by
  intro d₁
  induction d₁ with
  | nil =>
      intro acc r _ _ h2
      have : acc + p ≥ r := by simpa using h2
      simp [sampleWalk, this]
  | cons x d₁ ih =>
      obtain ⟨k, q⟩ := x
      intro acc r hnn h1 h2
      have hsum1 : 0 ≤ (d₁.map Prod.snd).sum :=
        dist_sum_nonneg d₁ (fun y hy => hnn y (by simp [hy]))
      rw [List.map_cons, List.sum_cons] at h1 h2
      have hlt : ¬(acc + q ≥ r) := by
        push_neg
        linarith
      rw [List.cons_append]
      show (if acc + q ≥ r then some k else sampleWalk r (d₁ ++ (w, p) :: d₂) (acc + q)) = some w
      rw [if_neg hlt]
      exact ih (acc + q) r (fun y hy => hnn y (by simp [hy]))
        (by linarith) (by linarith)

theorem dictGet_of_lookup (t : NGramTable) (c : List String) (d : Dist)
    (h : lookupDist t c = some d) : dictGet t c = (d, t) := by
  induction t with
  | nil => simp [lookupDist] at h
  | cons y rest ih =>
      obtain ⟨k, d0⟩ := y
      by_cases hk : k = c
      · subst hk
        simp [lookupDist] at h
        simp [dictGet, h]
      · simp [lookupDist, hk] at h
        simp [dictGet, hk, ih h]

/-- If a (context, word) pair was counted during training, then some draw in
`[0, 1)` makes `generate_token` return exactly that word on the trained
table, leaving the table unchanged. -/
theorem trained_step_sample (n : Nat) (corpus : List (List String))
    (c : List String) (w : String)
    (h1 : 1 ≤ getCount (corpus.foldl (countLine n) []) c w) :
    ∃ r, 0 ≤ r ∧ r < 1 ∧
      generate_token (init_ngram_dict n corpus) c r
        = (some w, init_ngram_dict n corpus) := by
  have hinv := counts_inv n corpus
  cases hd : lookupDist (corpus.foldl (countLine n) []) c with
  | none =>
      rw [getCount_eq_lookups, hd] at h1
      simp [lookupProb] at h1
      linarith
  | some d =>
      cases hp : lookupProb d w with
      | none =>
          rw [getCount_eq_lookups, hd, Option.getD_some, hp] at h1
          simp at h1
          linarith
      | some v =>
          have hv : getCount (corpus.foldl (countLine n) []) c w = v := by
            rw [getCount_eq_lookups, hd, Option.getD_some, hp, Option.getD_some]
          rw [hv] at h1
          obtain ⟨hdne, hdpos⟩ := hinv (c, d) (lookupDist_mem _ c d hd)
          have hT : 0 < (d.map Prod.snd).sum := dist_sum_pos d hdne hdpos
          obtain ⟨d₁, d₂, hsplit⟩ := lookupProb_split d w v hp
          have hnd : lookupDist (init_ngram_dict n corpus) c
              = some (d.map (fun x => (x.1, x.2 / (d.map Prod.snd).sum))) := by
            show lookupDist (normalize (corpus.foldl (countLine n) [])) c = _
            rw [lookupDist_normalize, hd]
            rfl
          have hd1nn : ∀ x ∈ d₁.map (fun x => (x.1, x.2 / (d.map Prod.snd).sum)), 0 ≤ x.2 := by
            intro x hx
            simp only [List.mem_map] at hx
            obtain ⟨x0, hx0, hxeq⟩ := hx
            have : 0 < x0.2 := hdpos x0 (by rw [hsplit]; exact List.mem_append_left _ hx0)
            rw [← hxeq]
            positivity
          have hd2nn : ∀ x ∈ d₂.map (fun x => (x.1, x.2 / (d.map Prod.snd).sum)), 0 ≤ x.2 := by
            intro x hx
            simp only [List.mem_map] at hx
            obtain ⟨x0, hx0, hxeq⟩ := hx
            have : 0 < x0.2 := hdpos x0 (by rw [hsplit]; simp [hx0])
            rw [← hxeq]
            positivity
          have hsplit' : d.map (fun x => (x.1, x.2 / (d.map Prod.snd).sum))
              = d₁.map (fun x => (x.1, x.2 / (d.map Prod.snd).sum))
                ++ (w, v / (d.map Prod.snd).sum)
                  :: d₂.map (fun x => (x.1, x.2 / (d.map Prod.snd).sum)) := by
            rw [hsplit]
            simp
          have hsum1 : (((d.map (fun x => (x.1, x.2 / (d.map Prod.snd).sum))).map Prod.snd).sum)
              = 1 := by
            rw [dist_sum_map_div]
            exact div_self (ne_of_gt hT)
          have hb0 : 0 ≤ ((d₁.map (fun x => (x.1, x.2 / (d.map Prod.snd).sum))).map Prod.snd).sum :=
            dist_sum_nonneg _ hd1nn
          have hs2nn : 0 ≤ ((d₂.map (fun x => (x.1, x.2 / (d.map Prod.snd).sum))).map Prod.snd).sum :=
            dist_sum_nonneg _ hd2nn
          have hvT : 0 < v / (d.map Prod.snd).sum := div_pos (by linarith) hT
          have hble : ((d₁.map (fun x => (x.1, x.2 / (d.map Prod.snd).sum))).map Prod.snd).sum
              + v / (d.map Prod.snd).sum ≤ 1 := by
            rw [hsplit'] at hsum1
            simp only [List.map_append, List.map_cons, List.sum_append, List.sum_cons] at hsum1
            linarith
          refine ⟨((d₁.map (fun x => (x.1, x.2 / (d.map Prod.snd).sum))).map Prod.snd).sum
            + (v / (d.map Prod.snd).sum) / 2, by linarith, by linarith, ?_⟩
          have hsel := sampleWalk_select w (v / (d.map Prod.snd).sum)
            (d₂.map (fun x => (x.1, x.2 / (d.map Prod.snd).sum)))
            (d₁.map (fun x => (x.1, x.2 / (d.map Prod.snd).sum)))
            0
            (((d₁.map (fun x => (x.1, x.2 / (d.map Prod.snd).sum))).map Prod.snd).sum
              + (v / (d.map Prod.snd).sum) / 2)
            hd1nn (by linarith) (by linarith)
          rw [generate_token.eq_def]
          rw [dictGet_of_lookup _ _ _ hnd]
          rw [hsplit']
          simp only [hsel]
end Ngram

namespace Ngram

/-! ### Sliding the context window along a padded line -/

theorem windowAt_one (padded : List String) (i : Nat) : windowAt 1 padded i = [] := by
  simp [windowAt, List.drop_take]

theorem take_succ_getD (l : List String) (m : Nat) (h : m < l.length) :
    l.take (m + 1) = l.take m ++ [l.getD m ""] := by
  rw [List.take_succ]
  congr 1
  rw [List.getD_eq_getElem l "" h, List.getElem?_eq_getElem h]
  rfl

theorem getD_drop (l : List String) (k m : Nat) :
    (l.drop k).getD m "" = l.getD (k + m) "" := by
  rw [List.getD_eq_getElem?_getD, List.getD_eq_getElem?_getD, List.getElem?_drop]

theorem windowAt_eq_drop_take (n : Nat) (padded : List String) (i : Nat) :
    windowAt n padded i = (padded.drop (i + 1 - n)).take (i - (i + 1 - n)) := by
  rw [windowAt, List.drop_take]

theorem windowAt_shift (n : Nat) (padded : List String) (i : Nat) (hn : 1 ≤ n)
    (hi : n - 1 ≤ i) (hlen : i < padded.length) :
    (windowAt n padded i ++ [padded.getD i ""]).drop 1 = windowAt n padded (i + 1) := by
  rcases Nat.lt_or_ge n 2 with h2 | h2
  · have hn1 : n = 1 := by omega
    subst hn1
    simp [windowAt_one]
  · have hjlt : i + 1 - n < padded.length := by omega
    have hdrop : padded.drop (i + 1 - n)
        = padded.getD (i + 1 - n) "" :: padded.drop (i + 1 - n + 1) := by
      rw [List.drop_eq_getElem_cons hjlt, List.getD_eq_getElem padded "" hjlt]
    have harith1 : i - (i + 1 - n) = (n - 2) + 1 := by omega
    have harith2 : (i + 1) - (i + 1 + 1 - n) = (n - 2) + 1 := by omega
    have harith3 : i + 1 + 1 - n = i + 1 - n + 1 := by omega
    rw [windowAt_eq_drop_take, windowAt_eq_drop_take, harith1, harith2, harith3, hdrop]
    rw [List.take_succ_cons, List.cons_append, List.drop_succ_cons, List.drop_zero]
    have hm : n - 2 < (padded.drop (i + 1 - n + 1)).length := by
      rw [List.length_drop]
      omega
    rw [take_succ_getD _ _ hm, getD_drop]
    have harith4 : i + 1 - n + 1 + (n - 2) = i := by omega
    rw [harith4]

theorem windowAt_start (n : Nat) (L : List String) (hn : 1 ≤ n) :
    windowAt n (List.replicate (n - 1) SENTENCE_START_TOKEN ++ L) (n - 1)
      = List.replicate (n - 1) SENTENCE_START_TOKEN := by
  rw [windowAt]
  have h0 : n - 1 + 1 - n = 0 := by omega
  rw [h0, List.drop_zero]
  exact List.take_left' (by simp)

end Ngram

namespace Ngram

/-- Following the windows of one corpus line from position `i` to its first
end marker yields a draw sequence in `[0, 1)` on which the generation loop
returns a sentence, with the trained table unchanged. -/
theorem reach_end (n : Nat) (corpus : List (List String)) (L : List String)
    (hn : 1 ≤ n) (hL : L ∈ corpus) :
    ∀ (m i : Nat),
      i + m = (List.replicate (n - 1) SENTENCE_START_TOKEN ++ L).length →
      n - 1 ≤ i →
      SENTENCE_END_TOKEN ∈ (List.replicate (n - 1) SENTENCE_START_TOKEN ++ L).drop i →
      ∀ s : String, ∃ draws : List ℚ, (∀ r ∈ draws, 0 ≤ r ∧ r < 1) ∧
        ∃ sentence, genLoop draws (init_ngram_dict n corpus)
          (windowAt n (List.replicate (n - 1) SENTENCE_START_TOKEN ++ L) i) s
          = (GenResult.ok sentence, init_ngram_dict n corpus) := by
  intro m
  induction m with
  | zero =>
      intro i hilen hi hend s
      rw [List.drop_eq_nil_of_le (by omega)] at hend
      simp at hend
  | succ m ih =>
      intro i hilen hi hend s
      have hlt : i < (List.replicate (n - 1) SENTENCE_START_TOKEN ++ L).length := by omega
      have hcount := pair_counted n corpus L hL i hi hlt
      obtain ⟨r, hr0, hr1, hgen⟩ := trained_step_sample n corpus _ _ hcount
      by_cases hw : (List.replicate (n - 1) SENTENCE_START_TOKEN ++ L).getD i ""
          = SENTENCE_END_TOKEN
      · refine ⟨[r], ?_, s, ?_⟩
        · intro r' hr'
          simp at hr'
          subst hr'
          exact ⟨hr0, hr1⟩
        · simp only [genLoop, hgen]
          rw [if_pos hw]
      · have hdropcons : (List.replicate (n - 1) SENTENCE_START_TOKEN ++ L).drop i
            = (List.replicate (n - 1) SENTENCE_START_TOKEN ++ L).getD i ""
              :: (List.replicate (n - 1) SENTENCE_START_TOKEN ++ L).drop (i + 1) := by
          rw [List.drop_eq_getElem_cons hlt, List.getD_eq_getElem _ "" hlt]
        rw [hdropcons] at hend
        have hend' : SENTENCE_END_TOKEN
            ∈ (List.replicate (n - 1) SENTENCE_START_TOKEN ++ L).drop (i + 1) := by
          rcases List.mem_cons.mp hend with h | h
          · exact absurd h.symm hw
          · exact h
        obtain ⟨draws', hdbounds, sentence, hrun⟩ := ih (i + 1) (by omega) (by omega) hend'
          (stepRender s ((List.replicate (n - 1) SENTENCE_START_TOKEN ++ L).getD i ""))
        refine ⟨r :: draws', ?_, sentence, ?_⟩
        · intro r' hr'
          rcases List.mem_cons.mp hr' with h | h
          · subst h
            exact ⟨hr0, hr1⟩
          · exact hdbounds r' h
        · simp only [genLoop, hgen]
          rw [if_neg hw, windowAt_shift n _ i hn hi hlt]
          exact hrun

/-- Claim C8 (amended): for a table trained from a nonempty corpus each of
whose token sequences contains the end-of-sentence marker, termination is
reachable: there EXISTS a finite sequence of draws in `[0, 1)` on which the
generation call returns a sentence (and leaves the table unchanged).
Termination is not guaranteed for every draw sequence. -/
theorem termination_reachable (n : Nat) (corpus : List (List String)) (hn : 1 ≤ n)
    (hne : corpus ≠ []) (hend : ∀ L ∈ corpus, SENTENCE_END_TOKEN ∈ L) :
    ∃ draws : List ℚ, (∀ r ∈ draws, 0 ≤ r ∧ r < 1) ∧
      ∃ sentence, modelCall n (init_ngram_dict n corpus) draws
        = (GenResult.ok sentence, init_ngram_dict n corpus) := by
  obtain ⟨L, rest, hc⟩ : ∃ L rest, corpus = L :: rest := by
    cases corpus with
    | nil => exact absurd rfl hne
    | cons L rest => exact ⟨L, rest, rfl⟩
  have hL : L ∈ corpus := by rw [hc]; simp
  have hdrop : (List.replicate (n - 1) SENTENCE_START_TOKEN ++ L).drop (n - 1) = L :=
    List.drop_left' (by simp)
  have hmem : SENTENCE_END_TOKEN
      ∈ (List.replicate (n - 1) SENTENCE_START_TOKEN ++ L).drop (n - 1) := by
    rw [hdrop]
    exact hend L hL
  have hlen : (n - 1) + ((List.replicate (n - 1) SENTENCE_START_TOKEN ++ L).length - (n - 1))
      = (List.replicate (n - 1) SENTENCE_START_TOKEN ++ L).length := by
    simp
  obtain ⟨draws, hb, sentence, hrun⟩ := reach_end n corpus L hn hL
    ((List.replicate (n - 1) SENTENCE_START_TOKEN ++ L).length - (n - 1)) (n - 1)
    hlen (le_refl _) hmem ""
  refine ⟨draws, hb, sentence, ?_⟩
  show genLoop draws (init_ngram_dict n corpus)
    (List.replicate (n - 1) SENTENCE_START_TOKEN) "" = _
  rw [← windowAt_start n L hn]
  exact hrun

theorem termination_reachable_witness :
    1 ≤ 1 ∧ ([["a", "<end>"]] : List (List String)) ≠ [] ∧
      (∀ L ∈ [["a", "<end>"]], SENTENCE_END_TOKEN ∈ L) ∧
      (∃ draws : List ℚ, (∀ r ∈ draws, 0 ≤ r ∧ r < 1) ∧
        ∃ sentence, modelCall 1 (init_ngram_dict 1 [["a", "<end>"]]) draws
          = (GenResult.ok sentence, init_ngram_dict 1 [["a", "<end>"]])) :=
  ⟨le_refl 1, by decide, by decide,
    termination_reachable 1 [["a", "<end>"]] (le_refl 1) (by decide) (by decide)⟩

end Ngram

namespace Ngram

/-! ### A fixed draw stream on which generation never terminates -/

theorem tokenize_a_a_dot : tokenize "a a." = ["a", "a", ".", "<end>"] := by decide

theorem table_aa_eval :
    init_ngram_dict 1 [["a", "a", ".", "<end>"]]
      = [([], [("a", (1 : ℚ)/2), (".", (1 : ℚ)/4), ("<end>", (1 : ℚ)/4)])] := by
  norm_num +decide [init_ngram_dict, countLine, countStep, windowAt, normalize,
    bumpTable, bumpWord, SENTENCE_START_TOKEN, List.range_succ]

theorem genLoop_aa_step (ds : List ℚ) (s : String) :
    genLoop ((0 : ℚ) :: ds) [([], [("a", (1 : ℚ)/2), (".", (1 : ℚ)/4), ("<end>", (1 : ℚ)/4)])]
        [] s
      = genLoop ds [([], [("a", (1 : ℚ)/2), (".", (1 : ℚ)/4), ("<end>", (1 : ℚ)/4)])] []
          (stepRender s "a") := by
  norm_num +decide [genLoop, generate_token, dictGet, sampleWalk, SENTENCE_END_TOKEN]

theorem genLoop_aa_timeout (k : Nat) :
    ∀ s, (genLoop (List.replicate k (0 : ℚ))
      [([], [("a", (1 : ℚ)/2), (".", (1 : ℚ)/4), ("<end>", (1 : ℚ)/4)])] [] s).1
      = GenResult.timeout := by
  induction k with
  | zero => intro s; simp [genLoop]
  | succ k ih =>
      intro s
      rw [List.replicate_succ, genLoop_aa_step]
      exact ih _

/-- Claim C8 (counterexample): training on the single line `"a a."` — a line
ending in a sentence-end character — with n = 1 yields a model whose
generation loop runs forever under the fixed all-zeros draw stream: every
draw selects the token `"a"`, so no bounded number of steps terminates it. -/
theorem generation_nontermination_cex :
    ¬ generationTerminates 1 (init_ngram_dict 1 [tokenize "a a."]) (fun _ => 0) := by
  intro hterm
  obtain ⟨k, s, t2, h⟩ := hterm
  rw [tokenize_a_a_dot, table_aa_eval] at h
  have hmap : (List.range k).map (fun _ => (0 : ℚ)) = List.replicate k 0 := by
    simp [List.map_const']
  rw [hmap] at h
  have hctx : List.replicate (1 - 1) SENTENCE_START_TOKEN = ([] : List String) := rfl
  rw [hctx] at h
  have ht := genLoop_aa_timeout k ""
  rw [h] at ht
  simp at ht

end Ngram
